import Mathlib

/-!
Verification of the queue-driven transcoding core of `h265_transcoder/tasks.py`.

The Python source is shallowly embedded: the SQLite `queue` table becomes a
list of rows, the filesystem becomes a map from paths to optional contents,
and the two external, fallible processes (the ffmpeg engine and the exiftool
probe) become oracle parameters describing their observable outcome at the
call boundary.  Every definition below is translated from the source file;
comments cite the Python construct being modelled.
-/

namespace H265

/-! ### Python string primitives used by the source -/

/--
Model of CPython `str.replace(pat, rep)` for a nonempty `pat`, on `List Char`:
scan left to right; whenever `pat` is a prefix of the remaining input, emit
`rep` and skip `pat.length` characters, otherwise emit one character.  The
`skip` counter makes the recursion structural.
-/
def pyReplaceAux (pat rep : List Char) : List Char → Nat → List Char
  | [], _ => []
  | c :: rest, skip =>
    match skip with
    | Nat.succ k => pyReplaceAux pat rep rest k
    | 0 =>
      if pat.isPrefixOf (c :: rest) && !pat.isEmpty then
        rep ++ pyReplaceAux pat rep rest (pat.length - 1)
      else
        c :: pyReplaceAux pat rep rest 0

/-- Model of CPython `s.replace(pat, rep)` (all occurrences replaced). -/
def pyReplace (s pat rep : String) : String :=
  ⟨pyReplaceAux pat.data rep.data s.data 0⟩

/-- Model of CPython `s.endswith(suf)`. -/
def pyEndswith (s suf : String) : Bool :=
  suf.data.isSuffixOf s.data

/-- Model of CPython `s.lower().strip()` as applied by the source to probe
stdout: lowercase each character, then drop whitespace at both ends. -/
def pyLowerStrip (s : String) : String :=
  ⟨(((s.data.map Char.toLower).dropWhile Char.isWhitespace).reverse.dropWhile
      Char.isWhitespace).reverse⟩

/-- Model of CPython `s.removesuffix(suf)`. -/
def pyRemovesuffix (s suf : String) : String :=
  if !suf.data.isEmpty && suf.data.isSuffixOf s.data then
    ⟨s.data.take (s.data.length - suf.data.length)⟩
  else
    s

/-! ### Data model: the SQLite `queue` table

Schema (spec section 6): `path`, `filename`, `transcode` (`"Y"` or `"N"`),
`status` (one of `queued`, `active`, `done`, `failed`, `skipped`, `unknown`),
with a unique key on `(path, filename)`.  A table is its list of rows in
insertion (rowid) order.
-/

structure QueueEntry where
  path : String
  filename : String
  transcode : String
  status : String
deriving DecidableEq, Repr

abbrev Table := List QueueEntry

/--
Filesystem model: a map from absolute paths to optional file contents
(`none` means the path does not exist).  Contents are abstracted to `Nat`.
-/
abbrev FS := String → Option Nat

/-- One filesystem write: set the contents at path `p` (or delete with `none`). -/
def fs_set (fs : FS) (p : String) (v : Option Nat) : FS :=
  fun q => if q = p then v else fs q

/-! ### Queue Store operations (`tasks.py`) -/

/--
Row effect of the SQL `UPDATE queue SET status = ? WHERE path = ? AND
filename = ?` used by `update_status`: a row matching the key gets the new
status, any other row is unchanged.
-/
def upd_entry (p f s : String) (e : QueueEntry) : QueueEntry :=
  if e.path = p ∧ e.filename = f then { e with status := s } else e

/-- `update_status(sqlite_db, path, filename, status)`: the SQL UPDATE applied
to every row of the table. -/
def update_status (db : Table) (p f s : String) : Table :=
  db.map (upd_entry p f s)

/-- Result set of the SQL query in `get_batch`:
`SELECT path, filename FROM queue WHERE transcode = 'Y' AND status = 'queued'`. -/
def batch_rows (db : Table) : List (String × String) :=
  (db.filter fun e => e.transcode == "Y" && e.status == "queued").map
    fun e => (e.path, e.filename)

/--
Limit resolution in `get_batch`: the input is the outcome of `int(BATCH)`
(`none` when the conversion raised `ValueError`, which is logged and falls
back to unlimited).  `batch == 0` and `batch < 0` also yield no limit; a
positive value is the limit.
-/
def resolve_limit (batch : Option Int) : Option Nat :=
  match batch with
  | none => none
  | some b => if b = 0 then none else if b > 0 then some b.toNat else none

/-- `get_batch(sqlite_db)`: the eligible rows, capped by the resolved limit
(SQL `LIMIT n` on a query returns its first `n` result rows). -/
def get_batch (db : Table) (batch : Option Int) : List (String × String) :=
  match resolve_limit batch with
  | none => batch_rows db
  | some n => (batch_rows db).take n

/-- `retry_failed(sqlite_db)`:
`SELECT path, filename FROM queue WHERE status = 'failed'`. -/
def retry_failed (db : Table) : List (String × String) :=
  (db.filter fun e => e.status == "failed").map fun e => (e.path, e.filename)

/-- The unique-key constraint check on `(path, filename)` for one INSERT. -/
def queue_has_key (db : Table) (p f : String) : Bool :=
  db.any fun e => e.path == p && e.filename == f

/--
`cursor.executemany(INSERT ..., rows)`: executes the INSERT once per row, in
order, and stops at the first constraint violation (`sqlite3.IntegrityError`),
leaving the rows already executed in place; the `Bool` records whether a
violation occurred.  Rows after the violating one are never executed.
-/
def executemany_insert (db : Table) (rows : List QueueEntry) : Table × Bool :=
  match rows with
  | [] => (db, false)
  | r :: rest =>
    if queue_has_key db r.path r.filename then (db, true)
    else executemany_insert (db ++ [r]) rest

/--
`insert_scan_results(sqlite_db, insert_list)`: runs the batched INSERT; an
`IntegrityError` is caught and only logged, so the call returns normally and
the storage scope commits whatever was executed.  (Other storage errors exit
the process and are outside this model.)
-/
def insert_scan_results (db : Table) (insert_list : List QueueEntry) : Table :=
  (executemany_insert db insert_list).1

/-! ### Reporter (`final_results`) -/

/--
Result set of `SELECT status, COUNT(status) FROM queue GROUP BY status`:
one pair per distinct status value, with the number of rows carrying it.
-/
def status_groups (db : Table) : List (String × Nat) :=
  ((db.map fun e => e.status).dedup).map
    fun s => (s, (db.filter fun e => e.status == s).length)

/-- One Python dict assignment `states[k] = v`. -/
def dict_set (m : String → Nat) (k : String) (v : Nat) : String → Nat :=
  fun q => if q = k then v else m q

/--
The `states` dict of `final_results` after the update loop: it starts with
the five reported statuses mapped to `0` and receives one assignment per
GROUP BY row (assignments for other status values only add unreported keys,
which the rendered summary never reads).
-/
def final_states (db : Table) : String → Nat :=
  (status_groups db).foldl (fun m p => dict_set m p.1 p.2) (fun _ => 0)

/-- The five counts rendered by the final summary message of `final_results`,
in message order: done, failed, queued, skipped, unknown. -/
def final_results (db : Table) : Nat × Nat × Nat × Nat × Nat :=
  (final_states db "done", final_states db "failed", final_states db "queued",
   final_states db "skipped", final_states db "unknown")

/-! ### Metadata Classifier (`read_metadata` / `verify_metadata`)

The exiftool boundary is an oracle: `none` models a
`subprocess.CalledProcessError` from `check=True`, `some out` the raw stdout
of a successful run.  The source normalises stdout with `.lower().strip()`.
-/

/--
`verify_metadata(filename)`: the secondary `-DocType` probe.  The subprocess
call has no exception handler in the source, so a `CalledProcessError`
propagates to the caller, modelled as `Except.error ()`.
-/
def verify_metadata (docTypeRaw : Option String) : Except Unit (String × String) :=
  match docTypeRaw with
  | none => Except.error ()
  | some out =>
    if pyLowerStrip out = "matroska" then Except.ok ("Y", "queued")
    else Except.ok ("N", "unknown")

/--
`read_metadata(path, filename)`: the primary `-CompressorID` probe.  Its own
`CalledProcessError` is caught (`(filename, "N", "unknown")`); the call to
`verify_metadata` happens in the `else:` clause of the `try`, where an
exception is not caught and propagates.
-/
def read_metadata (path filename : String) (primaryRaw secondaryRaw : Option String) :
    Except Unit (String × String × String) :=
  match primaryRaw with
  | none => Except.ok (filename, "N", "unknown")
  | some out =>
    if pyLowerStrip out = "hvc1" then Except.ok (filename, "N", "skipped")
    else if pyLowerStrip out = "" then
      match verify_metadata secondaryRaw with
      | Except.ok (t, s) => Except.ok (filename, t, s)
      | Except.error e => Except.error e
    else Except.ok (filename, "Y", "queued")

/-! ### Transcode Orchestrator (`class Transcode`, `transcode_queue`) -/

/-- The `Transcode` class: `__init__` stores `path` and `filename`. -/
structure Transcode where
  path : String
  filename : String
deriving DecidableEq, Repr

/-- `self.input_file = f"{self.path}/{self.filename}"`. -/
def Transcode.input_file (t : Transcode) : String :=
  t.path ++ "/" ++ t.filename

/--
`self.output_file` from `__init__`: for a `.mkv` filename,
`input_file.replace(".mkv", ".mp4")`; for a `.mp4` filename,
`input_file.replace(".mp4", ".h265")`.  For any other filename neither branch
runs and the attribute is never set, modelled a `none`.
-/
def Transcode.output_file (t : Transcode) : Option String :=
  if pyEndswith t.filename ".mkv" then
    some (pyReplace t.input_file ".mkv" ".mp4")
  else if pyEndswith t.filename ".mp4" then
    some (pyReplace t.input_file ".mp4" ".h265")
  else
    none

/-- `self.video_title` from `__init__` (set in the same two branches). -/
def Transcode.video_title (t : Transcode) : Option String :=
  if pyEndswith t.filename ".mkv" then
    some (pyRemovesuffix t.filename ".mkv")
  else if pyEndswith t.filename ".mp4" then
    some (pyRemovesuffix t.filename ".mp4")
  else
    none

/-- Observable events of one `Transcode.transcode` run: a persisted status
update, or the invocation of the external engine (`ffmpeg.execute()`). -/
inductive Ev where
  | update (status : String)
  | engine
deriving DecidableEq, Repr

/-- Outcome of one `Transcode.transcode` run: the table, the filesystem, the
returned `transcode_status` (`none` when the run raised before the engine
call), and the event trace in execution order. -/
structure RunResult where
  db : Table
  fs : FS
  status : Option String
  events : List Ev

/--
`Transcode.transcode(self)`.  Control flow of the source:
1. `update_status(..., "active")`;
2. build the ffmpeg command (reads `self.output_file`: for a filename with
   neither handled extension this raises `AttributeError`, which has no
   handler — modelled as `status := none`, before any engine event);
3. `ffmpeg.execute()`: `engineRuns` is the engine filesystem effect,
   `engineOk` is true when no `FFmpegError` was raised;
4. on `FFmpegError`: `transcode_status = "failed"` and, if the output path
   exists, `Path(output_file).unlink()`;
5. otherwise `transcode_status = "done"` (size logging has no state effect);
6. `finally: update_status(..., transcode_status)`.
-/
def Transcode.transcode (t : Transcode) (engineRuns : FS → FS) (engineOk : Bool)
    (fs : FS) (db : Table) : RunResult :=
  let db1 := update_status db t.path t.filename "active"
  match t.output_file with
  | none =>
    { db := db1, fs := fs, status := none, events := [Ev.update "active"] }
  | some out =>
    let fs1 := engineRuns fs
    if engineOk then
      { db := update_status db1 t.path t.filename "done", fs := fs1,
        status := some "done",
        events := [Ev.update "active", Ev.engine, Ev.update "done"] }
    else
      let fs2 := if (fs1 out).isSome then fs_set fs1 out none else fs1
      { db := update_status db1 t.path t.filename "failed", fs := fs2,
        status := some "failed",
        events := [Ev.update "active", Ev.engine, Ev.update "failed"] }

/--
`Transcode.delete_original(self)`: for a `.mkv` input, `Path(input_file).unlink()`;
for a `.mp4` input, `Path(output_file).replace(input_file)` (rename the
intermediate output over the original).  With neither extension no branch
runs (the source would then hit an unbound local in its log call).
-/
def Transcode.delete_original (t : Transcode) (fs : FS) : FS :=
  if pyEndswith t.input_file ".mkv" then
    fs_set fs t.input_file none
  else if pyEndswith t.input_file ".mp4" then
    match t.output_file with
    | some out => fs_set (fs_set fs t.input_file (fs out)) out none
    | none => fs
  else
    fs

/--
Body of the `for entry in queue_list` loop of `transcode_queue`: run the
transcode, then `if (transcode_video == "done") and (DELETE):
delete_original()`.
-/
def transcode_one (delete : Bool) (engineRuns : FS → FS) (engineOk : Bool)
    (db : Table) (fs : FS) (p f : String) : Table × FS × Option String :=
  let t : Transcode := { path := p, filename := f }
  let r := t.transcode engineRuns engineOk fs db
  match r.status with
  | some st =>
    if st == "done" && delete then (r.db, t.delete_original r.fs, some st)
    else (r.db, r.fs, some st)
  | none => (r.db, r.fs, none)

/--
`transcode_queue(sqlite_db, queue_list)`: sequentially process each
`(path, filename)`.  The engine oracles are per entry.  A run that raised
before the engine call aborts the loop (the exception has no handler); the
`Bool` of the result records that abort.
-/
def transcode_queue (delete : Bool) (engineRunsAt : String × String → FS → FS)
    (engineOkAt : String × String → Bool) :
    Table → FS → List (String × String) → Table × FS × Bool
  | db, fs, [] => (db, fs, false)
  | db, fs, (p, f) :: rest =>
    match transcode_one delete (engineRunsAt (p, f)) (engineOkAt (p, f)) db fs p f with
    | (db1, fs1, none) => (db1, fs1, true)
    | (db1, fs1, some _) =>
      transcode_queue delete engineRunsAt engineOkAt db1 fs1 rest

/-! ### Reachable table states

`scan_directory` inserts rows that are either `(Y, queued)` directly (for
`.mkv` files) or produced by the classifier; the orchestrator mutates rows
only through `transcode_queue` applied to a `get_batch` or `retry_failed`
selection.  `Reach` closes the empty initial table under these operations.
-/

/-- The transcode/status pairs a scan can insert: `(Y, queued)` for `.mkv`
files and for classifier result `queued`, `(N, skipped)` and `(N, unknown)`
for the other classifier results. -/
def ClassifierRow (e : QueueEntry) : Prop :=
  (e.transcode = "Y" ∧ e.status = "queued")
  ∨ (e.transcode = "N" ∧ e.status = "skipped")
  ∨ (e.transcode = "N" ∧ e.status = "unknown")

instance (e : QueueEntry) : Decidable (ClassifierRow e) := by
  unfold ClassifierRow; infer_instance

/-- Table states reachable through the operations of the core. -/
inductive Reach : Table → Prop where
  | init : Reach []
  | scan_insert (db : Table) (rows : List QueueEntry) (h : Reach db)
      (hrows : ∀ r ∈ rows, ClassifierRow r) :
      Reach (insert_scan_results db rows)
  | run_batch (db : Table) (b : Option Int) (delete : Bool)
      (engineRunsAt : String × String → FS → FS)
      (engineOkAt : String × String → Bool) (fs : FS) (h : Reach db) :
      Reach (transcode_queue delete engineRunsAt engineOkAt db fs (get_batch db b)).1
  | run_retry (db : Table) (delete : Bool)
      (engineRunsAt : String × String → FS → FS)
      (engineOkAt : String × String → Bool) (fs : FS) (h : Reach db) :
      Reach (transcode_queue delete engineRunsAt engineOkAt db fs (retry_failed db)).1

/-! ### Invariant vocabulary -/

/-- Two rows with distinct `(path, filename)` keys. -/
def KeyNe (a b : QueueEntry) : Prop :=
  a.path ≠ b.path ∨ a.filename ≠ b.filename

/-- The unique-key constraint holds on the table. -/
def KeysUnique (db : Table) : Prop :=
  db.Pairwise KeyNe

/-- Every row that ever was selected for transcoding (status `active`, `done`
or `failed`) carries `transcode = "Y"`. -/
def StatusY (db : Table) : Prop :=
  ∀ e ∈ db, (e.status = "active" ∨ e.status = "done" ∨ e.status = "failed") →
    e.transcode = "Y"

/-- Every row of the table matching key `(p, f)` carries `transcode = "Y"`. -/
def KeyY (db : Table) (p f : String) : Prop :=
  ∀ e ∈ db, e.path = p → e.filename = f → e.transcode = "Y"

/-! ### Lemmas about `update_status` -/

theorem upd_entry_path (p f s : String) (e : QueueEntry) :
    (upd_entry p f s e).path = e.path := by
  unfold upd_entry; split <;> rfl

theorem upd_entry_filename (p f s : String) (e : QueueEntry) :
    (upd_entry p f s e).filename = e.filename := by
  unfold upd_entry; split <;> rfl

theorem upd_entry_transcode (p f s : String) (e : QueueEntry) :
    (upd_entry p f s e).transcode = e.transcode := by
  unfold upd_entry; split <;> rfl

theorem upd_entry_key (p f s : String) (e : QueueEntry) (hp : e.path = p)
    (hf : e.filename = f) : upd_entry p f s e = { e with status := s } := by
  unfold upd_entry; rw [if_pos ⟨hp, hf⟩]

theorem upd_entry_nokey {p f : String} {e : QueueEntry}
    (h : ¬(e.path = p ∧ e.filename = f)) (s : String) : upd_entry p f s e = e := by
  unfold upd_entry; rw [if_neg h]

/-- After `update_status`, every row matching the key carries the new status. -/
theorem update_status_key_status (db : Table) (p f s : String) :
    ∀ e ∈ update_status db p f s, e.path = p → e.filename = f → e.status = s := by
  intro e he hp hf
  obtain ⟨e0, he0, rfl⟩ := List.mem_map.mp he
  by_cases hk : e0.path = p ∧ e0.filename = f
  · rw [upd_entry_key p f s e0 hk.1 hk.2]
  · rw [upd_entry_nokey hk] at hp hf
    exact absurd ⟨hp, hf⟩ hk

theorem keysUnique_update {db : Table} (hu : KeysUnique db) (p f s : String) :
    KeysUnique (update_status db p f s) := by
  unfold KeysUnique update_status
  refine List.pairwise_map.mpr (hu.imp ?_)
  intro a b h
  simpa [KeyNe, upd_entry_path, upd_entry_filename] using h

theorem keyY_update {db : Table} {p2 f2 : String} (h : KeyY db p2 f2)
    (p f s : String) : KeyY (update_status db p f s) p2 f2 := by
  intro e he hp hf
  obtain ⟨e0, he0, rfl⟩ := List.mem_map.mp he
  rw [upd_entry_path] at hp
  rw [upd_entry_filename] at hf
  rw [upd_entry_transcode]
  exact h e0 he0 hp hf

theorem statusY_update {db : Table} {p f : String} (hy : StatusY db)
    (hk : KeyY db p f) (s : String) : StatusY (update_status db p f s) := by
  intro e he hst
  obtain ⟨e0, he0, rfl⟩ := List.mem_map.mp he
  rw [upd_entry_transcode]
  by_cases hk0 : e0.path = p ∧ e0.filename = f
  · exact hk e0 he0 hk0.1 hk0.2
  · rw [upd_entry_nokey hk0] at hst
    exact hy e0 he0 hst

/-- In a table with unique keys, two rows with the same key are the same row. -/
theorem keysUnique_eq {db : Table} (hu : KeysUnique db) {a b : QueueEntry}
    (ha : a ∈ db) (hb : b ∈ db) (hp : a.path = b.path) (hf : a.filename = b.filename) :
    a = b := by
  induction db with
  | nil => cases ha
  | cons x xs ih =>
    have hx := (List.pairwise_cons.mp hu).1
    have hxs := (List.pairwise_cons.mp hu).2
    rcases List.mem_cons.mp ha with rfl | ha0
    · rcases List.mem_cons.mp hb with rfl | hb0
      · rfl
      · rcases hx b hb0 with h | h
        · exact absurd hp h
        · exact absurd hf h
    · rcases List.mem_cons.mp hb with rfl | hb0
      · rcases hx a ha0 with h | h
        · exact absurd hp.symm h
        · exact absurd hf.symm h
      · exact ih hxs ha0 hb0

/-! ### Lemmas about the selection queries -/

theorem mem_batch_rows {db : Table} {p f : String} :
    (p, f) ∈ batch_rows db ↔
      ∃ e, e ∈ db ∧ e.path = p ∧ e.filename = f ∧
        e.transcode = "Y" ∧ e.status = "queued" := by
  unfold batch_rows
  simp only [List.mem_map, List.mem_filter, Bool.and_eq_true, beq_iff_eq,
    Prod.mk.injEq]
  constructor
  · rintro ⟨e, ⟨he, ht, hs⟩, hp, hf⟩
    exact ⟨e, he, hp, hf, ht, hs⟩
  · rintro ⟨e, he, hp, hf, ht, hs⟩
    exact ⟨e, ⟨he, ht, hs⟩, hp, hf⟩

theorem mem_retry_failed {db : Table} {p f : String} :
    (p, f) ∈ retry_failed db ↔
      ∃ e, e ∈ db ∧ e.path = p ∧ e.filename = f ∧ e.status = "failed" := by
  unfold retry_failed
  simp only [List.mem_map, List.mem_filter, beq_iff_eq, Prod.mk.injEq]
  constructor
  · rintro ⟨e, ⟨he, hs⟩, hp, hf⟩
    exact ⟨e, he, hp, hf, hs⟩
  · rintro ⟨e, he, hp, hf, hs⟩
    exact ⟨e, ⟨he, hs⟩, hp, hf⟩

theorem get_batch_subset {db : Table} {b : Option Int} {pf : String × String}
    (h : pf ∈ get_batch db b) : pf ∈ batch_rows db := by
  unfold get_batch at h
  rcases hr : resolve_limit b with _ | n
  · rw [hr] at h; exact h
  · rw [hr] at h; exact List.take_subset n _ h

/-! ### Lemmas about the batched INSERT -/

theorem executemany_inv :
    ∀ (rows : List QueueEntry) (db : Table), KeysUnique db → StatusY db →
      (∀ r ∈ rows, ClassifierRow r) →
      KeysUnique (executemany_insert db rows).1 ∧ StatusY (executemany_insert db rows).1 := by
  intro rows
  induction rows with
  | nil =>
    intro db hu hy _
    simpa [executemany_insert] using ⟨hu, hy⟩
  | cons r rest ih =>
    intro db hu hy hc
    unfold executemany_insert
    by_cases hk : queue_has_key db r.path r.filename = true
    · rw [if_pos hk]; exact ⟨hu, hy⟩
    · rw [if_neg hk]
      apply ih
      · refine List.pairwise_append.mpr ⟨hu, by simp, ?_⟩
        intro a ha b hb
        have hb : b = r := List.mem_singleton.mp hb
        subst hb
        unfold KeyNe
        by_contra hcon
        push_neg at hcon
        apply hk
        unfold queue_has_key
        rw [List.any_eq_true]
        exact ⟨a, ha, by simp [hcon.1, hcon.2]⟩
      · intro e he hst
        rcases List.mem_append.mp he with h | h
        · exact hy e h hst
        · have h : e = r := List.mem_singleton.mp h
          subst h
          rcases hc e (List.mem_cons_self e rest) with ⟨ht, hs⟩ | ⟨ht, hs⟩ | ⟨ht, hs⟩ <;>
            rcases hst with h1 | h1 | h1 <;>
            (rw [hs] at h1; exact absurd h1 (by decide))
      · intro r2 hr2
        exact hc r2 (List.mem_cons_of_mem r hr2)

/-! ### Lemmas about the per-file transcode run -/

theorem transcode_preserves (t : Transcode) (er : FS → FS) (ok : Bool) (fs : FS)
    (db : Table) (hu : KeysUnique db) (hy : StatusY db) (hk : KeyY db t.path t.filename) :
    KeysUnique (t.transcode er ok fs db).db ∧ StatusY (t.transcode er ok fs db).db
    ∧ ∀ p2 f2, KeyY db p2 f2 → KeyY (t.transcode er ok fs db).db p2 f2 := by
  unfold Transcode.transcode
  rcases h : t.output_file with _ | out
  · simp only [h]
    exact ⟨keysUnique_update hu t.path t.filename "active",
      statusY_update hy hk "active",
      fun p2 f2 hk2 => keyY_update hk2 t.path t.filename "active"⟩
  · simp only [h]
    cases ok <;> simp only [Bool.false_eq_true, if_false, if_true] <;>
      exact ⟨keysUnique_update (keysUnique_update hu _ _ _) t.path t.filename _,
        statusY_update (statusY_update hy hk _) (keyY_update hk _ _ _) _,
        fun p2 f2 hk2 => keyY_update (keyY_update hk2 _ _ _) t.path t.filename _⟩

theorem transcode_one_db (delete : Bool) (er : FS → FS) (ok : Bool) (db : Table)
    (fs : FS) (p f : String) :
    (transcode_one delete er ok db fs p f).1
      = ((Transcode.mk p f).transcode er ok fs db).db := by
  unfold transcode_one
  rcases h : ((Transcode.mk p f).transcode er ok fs db).status with _ | st <;>
    simp only [h] <;> try rfl
  split <;> rfl

theorem transcode_queue_inv (delete : Bool) (erAt : String × String → FS → FS)
    (okAt : String × String → Bool) :
    ∀ (list : List (String × String)) (db : Table) (fs : FS),
      KeysUnique db → StatusY db → (∀ pf ∈ list, KeyY db pf.1 pf.2) →
      KeysUnique (transcode_queue delete erAt okAt db fs list).1
      ∧ StatusY (transcode_queue delete erAt okAt db fs list).1 := by
  intro list
  induction list with
  | nil =>
    intro db fs hu hy _
    simpa [transcode_queue] using ⟨hu, hy⟩
  | cons hd rest ih =>
    intro db fs hu hy hks
    obtain ⟨p, f⟩ := hd
    have hk : KeyY db p f := hks (p, f) (List.mem_cons_self _ _)
    have hpres := transcode_preserves (Transcode.mk p f) (erAt (p, f)) (okAt (p, f)) fs db hu hy hk
    have hone := transcode_one_db delete (erAt (p, f)) (okAt (p, f)) db fs p f
    rcases hro : transcode_one delete (erAt (p, f)) (okAt (p, f)) db fs p f with ⟨db1, fs1, st⟩
    have hdb1 : db1 = ((Transcode.mk p f).transcode (erAt (p, f)) (okAt (p, f)) fs db).db := by
      rw [← hone, hro]
    cases st with
    | none =>
      simp only [transcode_queue, hro]
      rw [hdb1]
      exact ⟨hpres.1, hpres.2.1⟩
    | some s =>
      simp only [transcode_queue, hro]
      apply ih db1 fs1
      · rw [hdb1]; exact hpres.1
      · rw [hdb1]; exact hpres.2.1
      · intro pf hpf
        rw [hdb1]
        exact hpres.2.2 pf.1 pf.2 (hks pf (List.mem_cons_of_mem _ hpf))

/-! ### The reachability invariant -/

theorem reach_inv {db : Table} (h : Reach db) : KeysUnique db ∧ StatusY db := by
  induction h with
  | init =>
    exact ⟨List.Pairwise.nil, fun e he _ => absurd he (List.not_mem_nil e)⟩
  | scan_insert db rows hr hrows ih =>
    exact executemany_inv rows db ih.1 ih.2 hrows
  | run_batch db b delete erAt okAt fs hr ih =>
    apply transcode_queue_inv delete erAt okAt (get_batch db b) db fs ih.1 ih.2
    intro pf hpf
    obtain ⟨p, f⟩ := pf
    obtain ⟨e, he, hp, hf, ht, _⟩ := mem_batch_rows.mp (get_batch_subset hpf)
    intro e2 he2 hp2 hf2
    have he2e : e2 = e := keysUnique_eq ih.1 he2 he (hp2.trans hp.symm) (hf2.trans hf.symm)
    rw [he2e]; exact ht
  | run_retry db delete erAt okAt fs hr ih =>
    apply transcode_queue_inv delete erAt okAt (retry_failed db) db fs ih.1 ih.2
    intro pf hpf
    obtain ⟨p, f⟩ := pf
    obtain ⟨e, he, hp, hf, hs⟩ := mem_retry_failed.mp hpf
    have ht : e.transcode = "Y" := ih.2 e he (Or.inr (Or.inr hs))
    intro e2 he2 hp2 hf2
    have he2e : e2 = e := keysUnique_eq ih.1 he2 he (hp2.trans hp.symm) (hf2.trans hf.symm)
    rw [he2e]; exact ht

/-! ### Lemmas about the string primitives -/

theorem pyEndswith_suffix {s suf : String} :
    pyEndswith s suf = true ↔ suf.data <:+ s.data := by
  unfold pyEndswith
  exact List.isSuffixOf_iff_suffix

/-- A suffix of the filename is a suffix of `path ++ "/" ++ filename`. -/
theorem pyEndswith_concat {p f suf : String} (h : pyEndswith f suf = true) :
    pyEndswith (p ++ "/" ++ f) suf = true := by
  rw [pyEndswith_suffix] at h ⊢
  have hdata : (p ++ "/" ++ f).data = (p ++ "/").data ++ f.data := rfl
  rw [hdata]
  exact h.trans (List.suffix_append _ _)

theorem suffix_eq_of_length {a b l : List Char} (ha : a <:+ l) (hb : b <:+ l)
    (hl : a.length = b.length) : a = b := by
  obtain ⟨u, hu⟩ := ha
  obtain ⟨v, hv⟩ := hb
  rw [← hv] at hu
  have hlen : u.length = v.length := by
    have hx := congrArg List.length hu
    simp only [List.length_append] at hx
    omega
  exact (List.append_inj hu hlen).2

/-- A string ending in `".mp4"` does not end in `".mkv"`. -/
theorem pyEndswith_mp4_not_mkv {s : String} (h : pyEndswith s ".mp4" = true) :
    pyEndswith s ".mkv" = false := by
  by_contra hcon
  rw [Bool.not_eq_false] at hcon
  rw [pyEndswith_suffix] at h hcon
  have hx := suffix_eq_of_length hcon h (by decide)
  exact absurd hx (by decide)

/-- Two lists neither of which is a prefix of the other stay different after
appending arbitrary tails. -/
theorem append_ne_append :
    ∀ (pat rep : List Char), pat.isPrefixOf rep = false → rep.isPrefixOf pat = false →
      ∀ (X Y : List Char), rep ++ X ≠ pat ++ Y := by
  intro pat
  induction pat with
  | nil =>
    intro rep h1 _ _ _ _
    simp at h1
  | cons a pat ih =>
    intro rep h1 h2 X Y hEq
    cases rep with
    | nil => simp at h2
    | cons b rep2 =>
      simp only [List.cons_append, List.cons.injEq] at hEq
      obtain ⟨hba, htail⟩ := hEq
      subst hba
      rw [List.isPrefixOf_cons₂] at h1 h2
      simp only [BEq.refl, Bool.true_and] at h1 h2
      exact ih rep2 h1 h2 X Y htail

/-- Unfolding equation of `pyReplaceAux` at skip `0` on a nonempty input. -/
theorem pyReplaceAux_cons (pat rep : List Char) (c : Char) (rest : List Char) :
    pyReplaceAux pat rep (c :: rest) 0 =
      if pat.isPrefixOf (c :: rest) && !pat.isEmpty then
        rep ++ pyReplaceAux pat rep rest (pat.length - 1)
      else c :: pyReplaceAux pat rep rest 0 := rfl

/-- If the pattern occurs in `s` (here: as a suffix), replacing it changes
the string, provided neither of pattern and replacement is a prefix of the
other. -/
theorem pyReplaceAux_ne (pat rep : List Char) (h1 : pat.isPrefixOf rep = false)
    (h2 : rep.isPrefixOf pat = false) :
    ∀ s : List Char, pat <:+ s → pyReplaceAux pat rep s 0 ≠ s := by
  intro s
  induction s with
  | nil =>
    intro hsuf
    have hpat : pat = [] := List.suffix_nil.mp hsuf
    subst hpat
    simp at h1
  | cons c rest ih =>
    intro hsuf
    have hpatne : pat ≠ [] := by
      intro hp; subst hp; simp at h1
    by_cases hpre : pat.isPrefixOf (c :: rest) = true
    · have hguard : (pat.isPrefixOf (c :: rest) && !pat.isEmpty) = true := by
        rw [hpre]
        cases pat with
        | nil => exact absurd rfl hpatne
        | cons x xs => rfl
      rw [pyReplaceAux_cons, if_pos hguard]
      obtain ⟨tail, htail⟩ : ∃ tail, c :: rest = pat ++ tail := by
        obtain ⟨tail, ht⟩ := List.isPrefixOf_iff_prefix.mp hpre
        exact ⟨tail, ht.symm⟩
      rw [htail]
      exact append_ne_append pat rep h1 h2 _ _
    · have hb : pat.isPrefixOf (c :: rest) = false := by
        cases hx : pat.isPrefixOf (c :: rest)
        · rfl
        · exact absurd hx hpre
      have hsuf2 : pat <:+ rest := by
        rcases List.suffix_cons_iff.mp hsuf with h | h
        · rw [h] at hpre
          exact absurd (List.isPrefixOf_iff_prefix.mpr (List.prefix_refl _)) hpre
        · exact h
      rw [pyReplaceAux_cons, if_neg (by simp [hb])]
      intro hEq
      simp only [List.cons.injEq] at hEq
      exact ih hsuf2 hEq.2

theorem pyReplace_ne {s pat rep : String} (h1 : pat.data.isPrefixOf rep.data = false)
    (h2 : rep.data.isPrefixOf pat.data = false) (hsuf : pyEndswith s pat = true) :
    pyReplace s pat rep ≠ s := by
  intro hEq
  have hdata : (pyReplace s pat rep).data = s.data := congrArg String.data hEq
  rw [pyEndswith_suffix] at hsuf
  exact pyReplaceAux_ne pat.data rep.data h1 h2 s.data hsuf hdata

/-- For a `.mkv` input path, the derived output path differs from the input. -/
theorem mkv_output_ne_input {s : String} (h : pyEndswith s ".mkv" = true) :
    pyReplace s ".mkv" ".mp4" ≠ s :=
  pyReplace_ne (by decide) (by decide) h

/-- For a `.mp4` input path, the derived intermediate output path differs
from the input. -/
theorem mp4_output_ne_input {s : String} (h : pyEndswith s ".mp4" = true) :
    pyReplace s ".mp4" ".h265" ≠ s :=
  pyReplace_ne (by decide) (by decide) h

/-! ### Lemmas about the reporter -/

theorem foldl_dict_not_mem :
    ∀ (l : List (String × Nat)) (m : String → Nat) (k : String),
      k ∉ l.map Prod.fst → (l.foldl (fun m p => dict_set m p.1 p.2) m) k = m k := by
  intro l
  induction l with
  | nil => intro m k _; rfl
  | cons hd tl ih =>
    intro m k hk
    simp only [List.map_cons, List.mem_cons] at hk
    push_neg at hk
    simp only [List.foldl_cons]
    rw [ih _ k hk.2]
    unfold dict_set
    rw [if_neg hk.1]

theorem foldl_dict_mem :
    ∀ (l : List (String × Nat)) (m : String → Nat) (k : String) (v : Nat),
      (l.map Prod.fst).Nodup → (k, v) ∈ l →
      (l.foldl (fun m p => dict_set m p.1 p.2) m) k = v := by
  intro l
  induction l with
  | nil => intro m k v _ h; cases h
  | cons hd tl ih =>
    intro m k v hnd hm
    simp only [List.map_cons, List.nodup_cons] at hnd
    rcases List.mem_cons.mp hm with rfl | hm2
    · simp only [List.foldl_cons]
      rw [foldl_dict_not_mem tl _ k hnd.1]
      unfold dict_set
      rw [if_pos rfl]
    · simp only [List.foldl_cons]
      exact ih _ k v hnd.2 hm2

theorem status_groups_keys (db : Table) :
    (status_groups db).map Prod.fst = (db.map fun e => e.status).dedup := by
  unfold status_groups
  rw [List.map_map]
  have hcomp : (Prod.fst ∘ fun s => (s, (db.filter fun e => e.status == s).length))
      = id := rfl
  rw [hcomp, List.map_id]

/-- The `states` dict of `final_results` holds, at every status name, the
number of rows carrying that status. -/
theorem final_states_eq (db : Table) (n : String) :
    final_states db n = (db.filter fun e => e.status == n).length := by
  unfold final_states
  by_cases hmem : n ∈ (db.map fun e => e.status).dedup
  · apply foldl_dict_mem
    · rw [status_groups_keys]
      exact (db.map fun e => e.status).nodup_dedup
    · unfold status_groups
      exact List.mem_map.mpr ⟨n, hmem, rfl⟩
  · rw [foldl_dict_not_mem _ _ n (by rw [status_groups_keys]; exact hmem)]
    have hnil : (db.filter fun e => e.status == n) = [] := by
      apply List.filter_eq_nil_iff.mpr
      intro e he hpe
      apply hmem
      rw [List.mem_dedup]
      exact List.mem_map.mpr ⟨e, he, by simpa using hpe⟩
    rw [hnil]
    rfl

/-! ### Lemmas about `output_file` -/

theorem output_file_mkv {t : Transcode} (h : pyEndswith t.filename ".mkv" = true) :
    t.output_file = some (pyReplace t.input_file ".mkv" ".mp4") := by
  unfold Transcode.output_file
  rw [if_pos h]

theorem output_file_mp4 {t : Transcode} (h : pyEndswith t.filename ".mp4" = true) :
    t.output_file = some (pyReplace t.input_file ".mp4" ".h265") := by
  unfold Transcode.output_file
  have hn := pyEndswith_mp4_not_mkv h
  rw [if_neg (by simp [hn]), if_pos h]

/-! ### Claim theorems -/

/--
C1: for every queue entry processed by the orchestrator (its filename has one
of the two handled extensions), `Transcode.transcode` persists status
`active` strictly before the engine invocation, and after the engine call
persists exactly one of `done` (engine success) or `failed` (engine failure);
no `queued` status is ever written and every row matching the key ends at the
final status, never at `queued`.
-/
theorem transcode_lifecycle (t : Transcode) (er : FS → FS) (ok : Bool) (fs : FS)
    (db : Table)
    (h : pyEndswith t.filename ".mkv" = true ∨ pyEndswith t.filename ".mp4" = true) :
    (t.transcode er ok fs db).events
        = [Ev.update "active", Ev.engine, Ev.update (if ok then "done" else "failed")]
    ∧ (t.transcode er ok fs db).status = some (if ok then "done" else "failed")
    ∧ (∀ s, Ev.update s ∈ (t.transcode er ok fs db).events → s ≠ "queued")
    ∧ (∀ e ∈ (t.transcode er ok fs db).db, e.path = t.path → e.filename = t.filename →
          e.status = (if ok then "done" else "failed")) := by
  have hout : ∃ out, t.output_file = some out := by
    rcases h with h | h
    · exact ⟨_, output_file_mkv h⟩
    · exact ⟨_, output_file_mp4 h⟩
  obtain ⟨out, hout⟩ := hout
  cases ok
  · simp only [Transcode.transcode, hout, Bool.false_eq_true, if_false]
    refine ⟨trivial, trivial, ?_, update_status_key_status _ _ _ _⟩
    intro s hs hq
    subst hq
    exact absurd hs (by decide)
  · simp only [Transcode.transcode, hout, if_true]
    refine ⟨trivial, trivial, ?_, update_status_key_status _ _ _ _⟩
    intro s hs hq
    subst hq
    exact absurd hs (by decide)

/-- Witness for C1 at a concrete `.mkv` entry with a succeeding engine. -/
theorem transcode_lifecycle_witness :
    (pyEndswith "a.mkv" ".mkv" = true ∨ pyEndswith "a.mkv" ".mp4" = true)
    ∧ ((Transcode.mk "/mnt" "a.mkv").transcode (fun g => g) true (fun _ => none)
          [QueueEntry.mk "/mnt" "a.mkv" "Y" "queued"]).events
        = [Ev.update "active", Ev.engine, Ev.update "done"] := by
  refine ⟨Or.inl (by decide), ?_⟩
  have h := transcode_lifecycle (Transcode.mk "/mnt" "a.mkv") (fun g => g) true
    (fun _ => none) [QueueEntry.mk "/mnt" "a.mkv" "Y" "queued"] (Or.inl (by decide))
  simpa using h.1

/--
C6: when the engine fails, the entry is marked `failed` and no artifact
remains at the derived output path afterwards (an existing partial output
file is unlinked; a missing one stays missing).
-/
theorem transcode_failure_cleanup (t : Transcode) (er : FS → FS) (fs : FS)
    (db : Table) (out : String) (hout : t.output_file = some out) :
    (t.transcode er false fs db).fs out = none
    ∧ (t.transcode er false fs db).status = some "failed"
    ∧ (∀ e ∈ (t.transcode er false fs db).db, e.path = t.path → e.filename = t.filename →
        e.status = "failed") := by
  simp only [Transcode.transcode, hout, Bool.false_eq_true, if_false]
  refine ⟨?_, trivial, update_status_key_status _ _ _ _⟩
  rcases hv : er fs out with _ | v
  · simp only [hv, Option.isSome_none, Bool.false_eq_true, if_false]
  · simp only [hv, Option.isSome_some, if_true]
    simp [fs_set]

/-- Witness for C6 at a concrete entry whose partial output exists. -/
theorem transcode_failure_cleanup_witness :
    (Transcode.mk "/mnt" "a.mkv").output_file = some "/mnt/a.mp4"
    ∧ ((Transcode.mk "/mnt" "a.mkv").transcode
        (fun _ => fun q => if q = "/mnt/a.mp4" then some 7 else none) false
        (fun _ => none) [QueueEntry.mk "/mnt" "a.mkv" "Y" "active"]).fs "/mnt/a.mp4"
      = none := by
  refine ⟨by decide, ?_⟩
  exact (transcode_failure_cleanup (Transcode.mk "/mnt" "a.mkv")
    (fun _ => fun q => if q = "/mnt/a.mp4" then some 7 else none)
    (fun _ => none) [QueueEntry.mk "/mnt" "a.mkv" "Y" "active"] "/mnt/a.mp4"
    (by decide)).1

/-! ### Computed forms of `transcode_one` and `delete_original` -/

theorem fs_set_same (fs : FS) (p : String) (v : Option Nat) : fs_set fs p v p = v := by
  unfold fs_set; rw [if_pos rfl]

theorem fs_set_other {q p : String} (h : q ≠ p) (fs : FS) (v : Option Nat) :
    fs_set fs p v q = fs q := by
  unfold fs_set; rw [if_neg h]

theorem output_file_none {t : Transcode} (h1 : pyEndswith t.filename ".mkv" ≠ true)
    (h2 : pyEndswith t.filename ".mp4" ≠ true) : t.output_file = none := by
  unfold Transcode.output_file
  rw [if_neg h1, if_neg h2]

theorem transcode_one_done (delete : Bool) (er : FS → FS) (db : Table) (fs : FS)
    (p f out : String) (hout : (Transcode.mk p f).output_file = some out) :
    transcode_one delete er true db fs p f
      = (((Transcode.mk p f).transcode er true fs db).db,
         (if delete then (Transcode.mk p f).delete_original (er fs) else er fs),
         some "done") := by
  have hst : ((Transcode.mk p f).transcode er true fs db).status = some "done" := by
    simp only [Transcode.transcode, hout, if_true]
  have hfs : ((Transcode.mk p f).transcode er true fs db).fs = er fs := by
    simp only [Transcode.transcode, hout, if_true]
  simp only [transcode_one, hst, hfs]
  cases delete <;> simp

theorem transcode_one_failed (delete : Bool) (er : FS → FS) (db : Table) (fs : FS)
    (p f out : String) (hout : (Transcode.mk p f).output_file = some out) :
    transcode_one delete er false db fs p f
      = (((Transcode.mk p f).transcode er false fs db).db,
         (if ((er fs) out).isSome then fs_set (er fs) out none else er fs),
         some "failed") := by
  have hst : ((Transcode.mk p f).transcode er false fs db).status = some "failed" := by
    simp only [Transcode.transcode, hout, Bool.false_eq_true, if_false]
  have hfs : ((Transcode.mk p f).transcode er false fs db).fs
      = (if ((er fs) out).isSome then fs_set (er fs) out none else er fs) := by
    simp only [Transcode.transcode, hout, Bool.false_eq_true, if_false]
  simp only [transcode_one, hst, hfs]
  simp

theorem transcode_one_crash (delete : Bool) (er : FS → FS) (ok : Bool) (db : Table)
    (fs : FS) (p f : String) (hout : (Transcode.mk p f).output_file = none) :
    transcode_one delete er ok db fs p f
      = (((Transcode.mk p f).transcode er ok fs db).db, fs, none) := by
  have hst : ((Transcode.mk p f).transcode er ok fs db).status = none := by
    simp only [Transcode.transcode, hout]
  have hfs : ((Transcode.mk p f).transcode er ok fs db).fs = fs := by
    simp only [Transcode.transcode, hout]
  simp only [transcode_one, hst, hfs]

theorem delete_original_mkv {t : Transcode} (h : pyEndswith t.input_file ".mkv" = true)
    (g : FS) : t.delete_original g = fs_set g t.input_file none := by
  unfold Transcode.delete_original
  rw [if_pos h]

theorem delete_original_mp4 {t : Transcode} (hm : pyEndswith t.input_file ".mp4" = true)
    {out : String} (hout : t.output_file = some out) (g : FS) :
    t.delete_original g = fs_set (fs_set g t.input_file (g out)) out none := by
  unfold Transcode.delete_original
  have hn := pyEndswith_mp4_not_mkv hm
  rw [if_neg (by simp [hn]), if_pos hm, hout]

/--
C7: the original input file is disposed of only when the run-wide DELETE flag
is on and the run ended `done`; then a `.mkv` original is deleted and a
`.mp4` original is replaced by the intermediate output (renamed over it,
afterwards absent from its own path).  With DELETE off or a run that did not
end `done` the original is unchanged (assuming the engine writes only to the
output path, expressed by `hpres`).
-/
theorem delete_flag_disposition (delete : Bool) (er : FS → FS) (ok : Bool)
    (db : Table) (fs : FS) (p f : String)
    (hpres : er fs ((Transcode.mk p f).input_file) = fs ((Transcode.mk p f).input_file)) :
    ((delete = false ∨ (transcode_one delete er ok db fs p f).2.2 ≠ some "done") →
        (transcode_one delete er ok db fs p f).2.1 ((Transcode.mk p f).input_file)
          = fs ((Transcode.mk p f).input_file))
    ∧ (delete = true → ok = true → pyEndswith f ".mkv" = true →
        (transcode_one delete er ok db fs p f).2.1 ((Transcode.mk p f).input_file) = none)
    ∧ (delete = true → ok = true → pyEndswith f ".mp4" = true →
        (transcode_one delete er ok db fs p f).2.1 ((Transcode.mk p f).input_file)
            = er fs (pyReplace ((Transcode.mk p f).input_file) ".mp4" ".h265")
          ∧ (transcode_one delete er ok db fs p f).2.1
              (pyReplace ((Transcode.mk p f).input_file) ".mp4" ".h265") = none) := by
  refine ⟨?_, ?_, ?_⟩
  · intro hno
    by_cases hmkv : pyEndswith f ".mkv" = true
    · have hout := output_file_mkv (t := Transcode.mk p f) hmkv
      have hinput : pyEndswith (Transcode.mk p f).input_file ".mkv" = true :=
        pyEndswith_concat hmkv
      have hne := mkv_output_ne_input hinput
      cases ok
      · rw [transcode_one_failed delete er db fs p f _ hout]
        dsimp only
        by_cases hb : ((er fs) (pyReplace (Transcode.mk p f).input_file ".mkv" ".mp4")).isSome
            = true
        · rw [if_pos hb, fs_set_other (Ne.symm hne), hpres]
        · rw [if_neg hb, hpres]
      · rcases hno with hd | hs
        · subst hd
          rw [transcode_one_done false er db fs p f _ hout]
          dsimp only
          rw [if_neg Bool.false_ne_true, hpres]
        · exfalso
          rw [transcode_one_done delete er db fs p f _ hout] at hs
          exact hs rfl
    · by_cases hmp4 : pyEndswith f ".mp4" = true
      · have hout := output_file_mp4 (t := Transcode.mk p f) hmp4
        have hinput : pyEndswith (Transcode.mk p f).input_file ".mp4" = true :=
          pyEndswith_concat hmp4
        have hne := mp4_output_ne_input hinput
        cases ok
        · rw [transcode_one_failed delete er db fs p f _ hout]
          dsimp only
          by_cases hb : ((er fs) (pyReplace (Transcode.mk p f).input_file ".mp4" ".h265")).isSome
              = true
          · rw [if_pos hb, fs_set_other (Ne.symm hne), hpres]
          · rw [if_neg hb, hpres]
        · rcases hno with hd | hs
          · subst hd
            rw [transcode_one_done false er db fs p f _ hout]
            dsimp only
            rw [if_neg Bool.false_ne_true, hpres]
          · exfalso
            rw [transcode_one_done delete er db fs p f _ hout] at hs
            exact hs rfl
      · have hout := output_file_none (t := Transcode.mk p f) hmkv hmp4
        rw [transcode_one_crash delete er ok db fs p f hout]
  · intro hd hok hm
    subst hd
    subst hok
    have hinput : pyEndswith (Transcode.mk p f).input_file ".mkv" = true :=
      pyEndswith_concat hm
    have hout := output_file_mkv (t := Transcode.mk p f) hm
    rw [transcode_one_done true er db fs p f _ hout]
    dsimp only
    rw [if_pos rfl, delete_original_mkv hinput, fs_set_same]
  · intro hd hok hm
    subst hd
    subst hok
    have hinput : pyEndswith (Transcode.mk p f).input_file ".mp4" = true :=
      pyEndswith_concat hm
    have hout := output_file_mp4 (t := Transcode.mk p f) hm
    have hne := mp4_output_ne_input hinput
    rw [transcode_one_done true er db fs p f _ hout]
    dsimp only
    rw [if_pos rfl, delete_original_mp4 hinput hout (er fs)]
    constructor
    · rw [fs_set_other (Ne.symm hne), fs_set_same]
    · rw [fs_set_same]

/-- Witness for C7: a concrete `.mp4` entry, DELETE on, engine succeeding;
the intermediate `.h265` output is renamed over the original. -/
theorem delete_flag_disposition_witness :
    (fun g => g) (fun q => if q = "/mnt/a.h265" then some 5 else
        if q = "/mnt/a.mp4" then some 9 else none) ((Transcode.mk "/mnt" "a.mp4").input_file)
      = (fun q => if q = "/mnt/a.h265" then some 5 else
        if q = "/mnt/a.mp4" then some 9 else none) ((Transcode.mk "/mnt" "a.mp4").input_file)
    ∧ (transcode_one true (fun g => g) true []
        (fun q => if q = "/mnt/a.h265" then some 5 else
          if q = "/mnt/a.mp4" then some 9 else none) "/mnt" "a.mp4").2.1 "/mnt/a.mp4"
      = some 5
    ∧ (transcode_one true (fun g => g) true []
        (fun q => if q = "/mnt/a.h265" then some 5 else
          if q = "/mnt/a.mp4" then some 9 else none) "/mnt" "a.mp4").2.1 "/mnt/a.h265"
      = none := by
  refine ⟨rfl, ?_, ?_⟩
  · have h := (delete_flag_disposition true (fun g => g) true []
      (fun q => if q = "/mnt/a.h265" then some 5 else
        if q = "/mnt/a.mp4" then some 9 else none) "/mnt" "a.mp4" rfl).2.2
      rfl rfl (by decide)
    exact h.1.trans (by decide)
  · have h := (delete_flag_disposition true (fun g => g) true []
      (fun q => if q = "/mnt/a.h265" then some 5 else
        if q = "/mnt/a.mp4" then some 9 else none) "/mnt" "a.mp4" rfl).2.2
      rfl rfl (by decide)
    exact (by decide : pyReplace ((Transcode.mk "/mnt" "a.mp4").input_file) ".mp4" ".h265"
      = "/mnt/a.h265") ▸ h.2

/--
C5: batch-limit policy of `get_batch`: a `ValueError` from `int(BATCH)`
(modelled `none`, logged as an error), the value `0` and any negative value
all resolve to unlimited selection of the `transcode = Y AND status = queued`
rows; a positive `n` returns the first `n` of those rows in queue order; and
every returned pair is backed by an eligible row.
-/
theorem get_batch_limit_policy (db : Table) :
    get_batch db none = batch_rows db
    ∧ get_batch db (some 0) = batch_rows db
    ∧ (∀ n : Int, n < 0 → get_batch db (some n) = batch_rows db)
    ∧ (∀ n : Int, 0 < n → get_batch db (some n) = (batch_rows db).take n.toNat
        ∧ (get_batch db (some n)).length ≤ n.toNat)
    ∧ (∀ b : Option Int, ∀ pf ∈ get_batch db b,
        ∃ e, e ∈ db ∧ e.path = pf.1 ∧ e.filename = pf.2 ∧
          e.transcode = "Y" ∧ e.status = "queued") := by
  refine ⟨rfl, by simp [get_batch, resolve_limit], ?_, ?_, ?_⟩
  · intro n hn
    have h0 : ¬(n = 0) := by omega
    have h1 : ¬(n > 0) := by omega
    simp [get_batch, resolve_limit, h0, h1]
  · intro n hn
    have h0 : ¬(n = 0) := by omega
    constructor
    · simp [get_batch, resolve_limit, h0, hn]
    · simp only [get_batch, resolve_limit, if_neg h0, if_pos hn]
      exact List.length_take_le _ _
  · intro b pf hpf
    obtain ⟨p2, f2⟩ := pf
    exact mem_batch_rows.mp (get_batch_subset hpf)

/-- Witness for C5: a negative limit selects everything; limit 3 caps the
result. -/
theorem get_batch_limit_policy_witness :
    ((-5 : Int) < 0
      ∧ get_batch [QueueEntry.mk "/mnt" "a.mkv" "Y" "queued",
          QueueEntry.mk "/mnt" "b.mkv" "Y" "queued"] (some (-5))
        = batch_rows [QueueEntry.mk "/mnt" "a.mkv" "Y" "queued",
          QueueEntry.mk "/mnt" "b.mkv" "Y" "queued"])
    ∧ ((0 : Int) < 3
      ∧ (get_batch [QueueEntry.mk "/mnt" "a.mkv" "Y" "queued",
          QueueEntry.mk "/mnt" "b.mkv" "Y" "queued"] (some 3)).length ≤ (3 : Int).toNat) := by
  constructor
  · exact ⟨by decide,
      (get_batch_limit_policy [QueueEntry.mk "/mnt" "a.mkv" "Y" "queued",
        QueueEntry.mk "/mnt" "b.mkv" "Y" "queued"]).2.2.1 (-5) (by decide)⟩
  · exact ⟨by decide,
      ((get_batch_limit_policy [QueueEntry.mk "/mnt" "a.mkv" "Y" "queued",
        QueueEntry.mk "/mnt" "b.mkv" "Y" "queued"]).2.2.2.1 3 (by decide)).2⟩

/--
C8: retry selection returns exactly the keys of the rows whose status is
`failed`: a pair is in the result of `retry_failed` exactly when the table
holds a row with that key and status `failed`; rows with any other status
(`skipped`, `unknown`, `done`, `queued`, `active`) contribute nothing.
-/
theorem retry_failed_exact (db : Table) (p f : String) :
    (p, f) ∈ retry_failed db ↔
      ∃ e, e ∈ db ∧ e.path = p ∧ e.filename = f ∧ e.status = "failed" :=
  mem_retry_failed

/--
C10: the reporter tallies exactly the five statuses `done`, `failed`,
`queued`, `skipped`, `unknown` (each the number of rows carrying it, zero
when absent), and a row with status `active` is counted into none of the
five rendered categories.
-/
theorem final_results_spec (db : Table) :
    final_results db =
      ((db.filter fun e => e.status == "done").length,
       (db.filter fun e => e.status == "failed").length,
       (db.filter fun e => e.status == "queued").length,
       (db.filter fun e => e.status == "skipped").length,
       (db.filter fun e => e.status == "unknown").length)
    ∧ ∀ e : QueueEntry, e.status = "active" →
        final_results (db ++ [e]) = final_results db := by
  constructor
  · unfold final_results
    rw [final_states_eq, final_states_eq, final_states_eq, final_states_eq,
      final_states_eq]
  · intro e he
    have hcount : ∀ n : String, n ≠ "active" →
        ((db ++ [e]).filter fun x => x.status == n).length
          = (db.filter fun x => x.status == n).length := by
      intro n hn
      have hb : (e.status == n) = false := by
        rw [he]
        exact beq_eq_false_iff_ne.mpr (Ne.symm hn)
      rw [List.filter_append]
      simp [List.filter_cons, hb]
    unfold final_results
    simp only [final_states_eq]
    rw [hcount "done" (by decide), hcount "failed" (by decide),
      hcount "queued" (by decide), hcount "skipped" (by decide),
      hcount "unknown" (by decide)]

/-- Witness for C10: an `active` row leaves the rendered summary unchanged. -/
theorem final_results_spec_witness :
    (QueueEntry.mk "/mnt" "b.mkv" "Y" "active").status = "active"
    ∧ final_results ([QueueEntry.mk "/mnt" "a.mkv" "Y" "done"]
          ++ [QueueEntry.mk "/mnt" "b.mkv" "Y" "active"])
      = final_results [QueueEntry.mk "/mnt" "a.mkv" "Y" "done"] :=
  ⟨rfl, (final_results_spec [QueueEntry.mk "/mnt" "a.mkv" "Y" "done"]).2 _ rfl⟩

/--
C2 counterexample: the claim asserts the classifier returns a terminal
classification in every case including a secondary-probe failure; on the
code, a primary probe returning an empty tag followed by a failing secondary
probe makes `read_metadata` propagate the error instead.
-/
theorem read_metadata_secondary_error :
    read_metadata "/mnt" "clip.avi" (some "") none = Except.error () := rfl

/--
C2 (amended): the classifier decision table — primary probe failure yields
`(N, unknown)`; tag `hvc1` yields `(N, skipped)`; empty tag with secondary
document type `matroska` yields `(Y, queued)`; empty tag with any other
secondary document type yields `(N, unknown)`; any other nonempty tag yields
`(Y, queued)`; and the one non-terminal case: empty tag with a failing
secondary probe propagates the error.
-/
theorem read_metadata_decision_table (path fn : String) (praw sraw : Option String) :
    (praw = none → read_metadata path fn praw sraw = Except.ok (fn, "N", "unknown"))
    ∧ (∀ x, praw = some x → pyLowerStrip x = "hvc1" →
        read_metadata path fn praw sraw = Except.ok (fn, "N", "skipped"))
    ∧ (∀ x y, praw = some x → pyLowerStrip x = "" → sraw = some y →
        pyLowerStrip y = "matroska" →
        read_metadata path fn praw sraw = Except.ok (fn, "Y", "queued"))
    ∧ (∀ x y, praw = some x → pyLowerStrip x = "" → sraw = some y →
        pyLowerStrip y ≠ "matroska" →
        read_metadata path fn praw sraw = Except.ok (fn, "N", "unknown"))
    ∧ (∀ x, praw = some x → pyLowerStrip x ≠ "hvc1" → pyLowerStrip x ≠ "" →
        read_metadata path fn praw sraw = Except.ok (fn, "Y", "queued"))
    ∧ (∀ x, praw = some x → pyLowerStrip x = "" → sraw = none →
        read_metadata path fn praw sraw = Except.error ()) := by
  refine ⟨?_, ?_, ?_, ?_, ?_, ?_⟩
  · rintro rfl; rfl
  · rintro x rfl hx
    simp [read_metadata, hx]
  · rintro x y rfl hx rfl hy
    have hne : pyLowerStrip x ≠ "hvc1" := by rw [hx]; decide
    simp [read_metadata, verify_metadata, hx, hne, hy]
  · rintro x y rfl hx rfl hy
    have hne : pyLowerStrip x ≠ "hvc1" := by rw [hx]; decide
    simp [read_metadata, verify_metadata, hx, hne, hy]
  · rintro x rfl hx1 hx2
    simp [read_metadata, hx1, hx2]
  · rintro x rfl hx rfl
    have hne : pyLowerStrip x ≠ "hvc1" := by rw [hx]; decide
    simp [read_metadata, verify_metadata, hx, hne]

/-- Witness for C2: a nonempty, non-hvc1 tag is queued for transcoding. -/
theorem read_metadata_decision_table_witness :
    pyLowerStrip "MKV\n" ≠ "hvc1" ∧ pyLowerStrip "MKV\n" ≠ ""
    ∧ read_metadata "/mnt" "a.mp4" (some "MKV\n") none
        = Except.ok ("a.mp4", "Y", "queued") := by
  refine ⟨by decide, by decide, ?_⟩
  exact (read_metadata_decision_table "/mnt" "a.mp4" (some "MKV\n") none).2.2.2.2.1
    "MKV\n" rfl (by decide) (by decide)

/--
C3 (code behavior at the failing input): `executemany` stops at the first
duplicate-key violation, so in the batch `[a, a, b]` the duplicate yields one
row for `a` but the non-duplicate `b` after it is never inserted — contrary
to the claim that every non-duplicate entry in the batch still commits.
-/
theorem insert_scan_results_drops_after_duplicate :
    insert_scan_results []
        [QueueEntry.mk "/mnt" "a.mkv" "Y" "queued",
         QueueEntry.mk "/mnt" "a.mkv" "Y" "queued",
         QueueEntry.mk "/mnt" "b.mkv" "Y" "queued"]
      = [QueueEntry.mk "/mnt" "a.mkv" "Y" "queued"]
    ∧ QueueEntry.mk "/mnt" "b.mkv" "Y" "queued"
        ∉ insert_scan_results []
          [QueueEntry.mk "/mnt" "a.mkv" "Y" "queued",
           QueueEntry.mk "/mnt" "a.mkv" "Y" "queued",
           QueueEntry.mk "/mnt" "b.mkv" "Y" "queued"] := by
  constructor
  · decide
  · decide

/--
C4 (code behavior at the failing input): `str.replace` substitutes every
occurrence in the whole path, so for the `.mkv` file `b.mkv` in directory
`/a.mkv` the derived output is `/a.mp4/b.mp4` and not, as the claim states
for paths whose directory components contain `.mkv`, the input path with
only its extension replaced (`/a.mkv/b.mp4`).
-/
theorem output_file_mutates_directory :
    (Transcode.mk "/a.mkv" "b.mkv").output_file = some "/a.mp4/b.mp4"
    ∧ ("/a.mp4/b.mp4" : String) ≠ "/a.mkv" ++ "/" ++ "b.mp4" := by
  constructor
  · decide
  · decide

/--
C9: in every reachable table state, a `failed` row carries `transcode = "Y"`;
batch selection only ever returns keys of rows with `transcode = Y` and
status `queued`; and retry selection, though it filters on status alone,
never returns the key of a `transcode = N` row.
-/
theorem reachable_transcode_invariant (db : Table) (h : Reach db) :
    (∀ e ∈ db, e.status = "failed" → e.transcode = "Y")
    ∧ (∀ b : Option Int, ∀ p f : String, (p, f) ∈ get_batch db b →
        ∃ e, e ∈ db ∧ e.path = p ∧ e.filename = f ∧
          e.transcode = "Y" ∧ e.status = "queued")
    ∧ (∀ p f : String, (p, f) ∈ retry_failed db →
        ∃ e, e ∈ db ∧ e.path = p ∧ e.filename = f ∧
          e.transcode = "Y" ∧ e.status = "failed") := by
  obtain ⟨hu, hy⟩ := reach_inv h
  refine ⟨fun e he hst => hy e he (Or.inr (Or.inr hst)), ?_, ?_⟩
  · intro b p f hm
    exact mem_batch_rows.mp (get_batch_subset hm)
  · intro p f hm
    obtain ⟨e, he, hp, hf, hs⟩ := mem_retry_failed.mp hm
    exact ⟨e, he, hp, hf, hy e he (Or.inr (Or.inr hs)), hs⟩

/-- Witness for C9: scan-insert one row, run the batch with a failing engine;
the retry selection then returns that key, and it is backed by a
`transcode = Y` row with status `failed`. -/
theorem reachable_transcode_invariant_witness :
    ("/mnt", "a.mkv") ∈ retry_failed
        ((transcode_queue false (fun _ g => g) (fun _ => false)
          (insert_scan_results [] [QueueEntry.mk "/mnt" "a.mkv" "Y" "queued"])
          (fun _ => none)
          (get_batch (insert_scan_results []
            [QueueEntry.mk "/mnt" "a.mkv" "Y" "queued"]) none)).1)
    ∧ ∃ e, e ∈ (transcode_queue false (fun _ g => g) (fun _ => false)
          (insert_scan_results [] [QueueEntry.mk "/mnt" "a.mkv" "Y" "queued"])
          (fun _ => none)
          (get_batch (insert_scan_results []
            [QueueEntry.mk "/mnt" "a.mkv" "Y" "queued"]) none)).1
        ∧ e.path = "/mnt" ∧ e.filename = "a.mkv" ∧
          e.transcode = "Y" ∧ e.status = "failed" := by
  have hscan : Reach (insert_scan_results [] [QueueEntry.mk "/mnt" "a.mkv" "Y" "queued"]) :=
    Reach.scan_insert [] [QueueEntry.mk "/mnt" "a.mkv" "Y" "queued"] Reach.init
      (by decide)
  have hreach := Reach.run_batch
    (insert_scan_results [] [QueueEntry.mk "/mnt" "a.mkv" "Y" "queued"]) none false
    (fun _ g => g) (fun _ => false) (fun _ => none) hscan
  refine ⟨by decide, ?_⟩
  exact (reachable_transcode_invariant _ hreach).2.2 "/mnt" "a.mkv" (by decide)

end H265
